import Mathlib

set_option maxHeartbeats 1000000

/-! Shallow embedding of the two wire-protocol clients of the repository:
the Server List Ping client in `src/minecraft/lifecycle.py` and the RCON
daemon bridge with its direct-socket fallback in
`src/minecraft/daemon_rcon.py`.  Bytes are modelled as `Nat` (in `0..255`
wherever the source produces them), byte strings as `List Nat`, Python
`int` as `Int` or `Nat`, and every fallible path as `Option` or `Except`. -/

namespace MinecraftPing

/-- Loop of `MinecraftPing._encode_varint` (lifecycle.py:821-833).  `fuel`
bounds the number of iterations of the Python `while True:` loop; every
caller passes a bound large enough that it is never exhausted, since the
loop runs at most `v + 1` times (`v` shrinks by a factor of 128 each
iteration). -/
def encodeVarintAux : Nat → Nat → List Nat
  | 0, _ => []
  | fuel + 1, v =>
    let byte := v &&& 0x7F
    let v2 := v >>> 7
    if v2 = 0 then [byte] else (byte ||| 0x80) :: encodeVarintAux fuel v2

/-- `MinecraftPing._encode_varint` (lifecycle.py:821-833): a negative value
wraps into the unsigned 32-bit domain (`value += 1 << 32`) before the
7-bit group loop.  For `value < -2^32` the Python loop does not terminate,
so the embedding is meaningful for `value ≥ -2^32`. -/
def encode_varint (value : Int) : List Nat :=
  let v : Int := if value < 0 then value + 2 ^ 32 else value
  encodeVarintAux (v.toNat + 1) v.toNat

/-- Loop of `MinecraftPing._read_varint` (lifecycle.py:836-850) over the
bytes at and after the current offset; returns the accumulated unsigned
result together with the number of bytes consumed, or `none` for the
`ValueError` raised when the data ends while the continuation bit is
still set. -/
def readVarintAux : List Nat → Nat → Nat → Option (Nat × Nat)
  | [], _, _ => none
  | b :: rest, result, shift =>
    let result2 := result ||| ((b &&& 0x7F) <<< shift)
    if b &&& 0x80 = 0 then
      some (result2, 1)
    else
      match readVarintAux rest result2 (shift + 7) with
      | none => none
      | some (r, used) => some (r, used + 1)

/-- `MinecraftPing._read_varint` (lifecycle.py:836-850): decode a varint
from `data` starting at `offset`; a result with bit 31 set is
sign-extended (`result -= 1 << 32`).  Returns the value and the advanced
offset, or `none` for the `ValueError` path. -/
def read_varint (data : List Nat) (offset : Nat) : Option (Int × Nat) :=
  match readVarintAux (data.drop offset) 0 0 with
  | none => none
  | some (r, used) =>
    some (if r &&& (1 <<< 31) = 0 then (r : Int) else (r : Int) - 2 ^ 32, offset + used)

end MinecraftPing

/-- Result of Python `json.loads`: the JSON documents this protocol
carries.  The status documents in scope use integer numbers only, so
numbers are modelled as `Int`. -/
inductive Json where
  | null : Json
  | bool : Bool → Json
  | num : Int → Json
  | str : String → Json
  | arr : List Json → Json
  | obj : List (String × Json) → Json

/-- First-match association lookup in a JSON object's field list (Python
`dict` indexing; `json.loads` keeps one entry per key). -/
def jlookup : List (String × Json) → String → Option Json
  | [], _ => none
  | (k, v) :: rest, key => if k = key then some v else jlookup rest key

/-- Python `d.get(key, default)` on a value expected to be a `dict`;
`none` models the `AttributeError` raised when the value is not a dict. -/
def pyGet (j : Json) (key : String) (dflt : Json) : Option Json :=
  match j with
  | .obj fields =>
    match jlookup fields key with
    | some v => some v
    | none => some dflt
  | _ => none

/-- Python slice `data[start:stop]` for a nonnegative `start` and an
arbitrary (possibly negative) `stop`, as `_parse_response` uses it: a
negative `stop` counts from the end, and out-of-range bounds clamp. -/
def pySlice (data : List Nat) (start : Nat) (stop : Int) : List Nat :=
  let n : Int := data.length
  let stop2 : Int := if stop < 0 then max 0 (n + stop) else min stop n
  (data.drop start).take (stop2 - start).toNat

namespace MinecraftPing

/-- `MinecraftPing._parse_response` (lifecycle.py:852-864), parametrised
by `loads`, the Python `json.loads(bytes.decode("utf-8"))` step (standard
library, not repository code); `loads` returns `none` when UTF-8 decoding
or JSON parsing fails.  Every failure path of the parser itself --
`ValueError` from `_read_varint`, a buffer shorter than the declared
packet length, a wrong packet id -- yields `none`. -/
def parse_response (loads : List Nat → Option Json) (data : List Nat) : Option Json :=
  match read_varint data 0 with
  | none => none
  | some (pktLen, offset1) =>
    if (data.length : Int) < (offset1 : Int) + pktLen then none
    else
      match read_varint data offset1 with
      | none => none
      | some (pktId, offset2) =>
        if pktId ≠ 0 then none
        else
          match read_varint data offset2 with
          | none => none
          | some (jsonLen, offset3) =>
            loads (pySlice data offset3 ((offset3 : Int) + jsonLen))

/-- One `sock.recv(4096)` outcome inside the read loop of
`MinecraftPing.ping`: either a delivered chunk (empty chunk = peer
closed) or a raised `socket.timeout` / `socket.error` / `OSError`. -/
inductive PingEvent where
  | chunk : List Nat → PingEvent
  | sockErr : PingEvent

/-- Outcome of `MinecraftPing.ping` (lifecycle.py:777-818): the value the
caller receives, and whether `sock.close()` ran before returning. -/
structure PingOutcome where
  result : Option Json
  closed : Bool

/-- Read loop of `MinecraftPing.ping` (lifecycle.py:800-815) over a trace
of socket events, accumulating into `data`: an empty chunk breaks out of
the loop, closes the socket and returns `None`; a successful parse closes
the socket and returns the parsed value; a raised socket error is caught
by the outer handler, which returns `None` without reaching any
`sock.close()` call; an exhausted trace stands for a read that blocks
until `socket.timeout` fires, which the outer handler treats the same
way. -/
def pingLoop (loads : List Nat → Option Json) : List PingEvent → List Nat → PingOutcome
  | [], _ => ⟨none, false⟩
  | .sockErr :: _, _ => ⟨none, false⟩
  | .chunk [] :: _, _ => ⟨none, true⟩
  | .chunk c :: rest, data =>
    match parse_response loads (data ++ c) with
    | some parsed => ⟨some parsed, true⟩
    | none => pingLoop loads rest (data ++ c)

end MinecraftPing

/-- Little-endian 4-byte encoding `struct.pack("<i", v)` of a signed
32-bit integer.  The Python call raises for values outside that range;
the embedding wraps modulo `2^32`, and the theorems restrict to the
representable range. -/
def le32 (v : Int) : List Nat :=
  let n : Nat := (v % 2 ^ 32).toNat
  [n % 256, n / 256 % 256, n / 256 ^ 2 % 256, n / 256 ^ 3 % 256]

/-- Unsigned value of a little-endian byte string. -/
def natOfLE (bs : List Nat) : Nat :=
  bs.foldr (fun b acc => b + 256 * acc) 0

/-- `struct.unpack("<i", bs)` on a 4-byte buffer: little-endian bytes with
two's-complement sign. -/
def int32ofLE (bs : List Nat) : Int :=
  let n := natOfLE bs
  if n < 2 ^ 31 then (n : Int) else (n : Int) - 2 ^ 32

/-- `_make_packet` (daemon_rcon.py:209-211): a 4-byte little-endian size
prefix, then the request id, the packet type, the payload and two null
bytes. -/
def make_packet (reqId pktType : Int) (payload : List Nat) : List Nat :=
  let body := le32 reqId ++ le32 pktType ++ payload ++ [0, 0]
  le32 (body.length : Int) ++ body

/-- Result of the accumulate-exactly-n loops inside `_read_packet`
(daemon_rcon.py:213-230): `ok` carries the complete buffer; `eof` is a
zero-length read before completion (the function returns `None`);
`blocked` is a read the supplied chunk schedule cannot serve (the real
socket would block until its timeout fires). -/
inductive RecvResult where
  | ok : List Nat → RecvResult
  | eof : RecvResult
  | blocked : RecvResult
deriving DecidableEq

/-- One `while len(buf) < n: chunk = sock.recv(n - len(buf))` loop of
`_read_packet`.  The socket is modelled as a schedule of delivered
chunks: `recv k` hands over at most `k` bytes of the front chunk and the
remainder stays queued.  `fuel` bounds the iteration count; each
iteration delivers at least one byte, so `n + 1` is always enough. -/
def recvLoop : Nat → Nat → List (List Nat) → List Nat → RecvResult × List (List Nat)
  | 0, _, chunks, _ => (.blocked, chunks)
  | fuel + 1, n, chunks, acc =>
    if n ≤ acc.length then (.ok acc, chunks)
    else
      match chunks with
      | [] => (.blocked, [])
      | c :: rest =>
        if c = [] then (.eof, c :: rest)
        else
          let k := n - acc.length
          recvLoop fuel n (if k < c.length then c.drop k :: rest else rest) (acc ++ c.take k)

/-- Read exactly `n` bytes from the chunk schedule, as both loops of
`_read_packet` do. -/
def recvExact (n : Nat) (chunks : List (List Nat)) : RecvResult × List (List Nat) :=
  recvLoop (n + 1) n chunks []

/-- What a `_read_packet` call produces: a parsed frame, `closed` for the
`return None` on a zero-length read, or `exc` for an exception escaping
(`struct.error` on a frame shorter than 8 bytes, or a blocking read
hitting the socket timeout). -/
inductive ReadPacketResult where
  | frame : Int → Int → List Nat → ReadPacketResult
  | closed : ReadPacketResult
  | exc : ReadPacketResult
deriving DecidableEq

/-- `_read_packet` (daemon_rcon.py:213-230): read the 4-byte size field,
then `size` further bytes, and split them into
`(req_id, pkt_type, payload)` where the payload is `data[8:-2]` when more
than 10 bytes arrived and empty otherwise.  A negative `size` skips the
second loop (`while len(data) < size` is immediately false), after which
the 4-byte unpack of the empty buffer raises. -/
def read_packet (chunks : List (List Nat)) : ReadPacketResult × List (List Nat) :=
  match recvExact 4 chunks with
  | (.ok rawSize, rest) =>
    let size : Int := int32ofLE rawSize
    match recvExact size.toNat rest with
    | (.ok data, rest2) =>
      if 8 ≤ data.length then
        let reqId := int32ofLE (data.take 4)
        let pktType := int32ofLE ((data.drop 4).take 4)
        let payload := if 10 < data.length then (data.drop 8).take (data.length - 10) else []
        (.frame reqId pktType payload, rest2)
      else (.exc, rest2)
    | (.eof, rest2) => (.closed, rest2)
    | (.blocked, rest2) => (.exc, rest2)
  | (.eof, rest) => (.closed, rest)
  | (.blocked, rest) => (.exc, rest)

/-- The `ConnectionError`s the fallback path of `rcon_command` raises,
plus `raised` for any other exception propagating out of
`_read_packet`. -/
inductive RconError where
  | authFailed : RconError
  | noResponse : RconError
  | raised : RconError
deriving DecidableEq

/-- Direct-socket fallback path of `rcon_command`
(daemon_rcon.py:237-249): send the authenticate frame (packet type 3),
read one frame -- no frame or `req_id == -1` raises the authentication
`ConnectionError` -- then send the execute-command frame (packet type 2)
and read its response.  The result carries the outcome together with the
list of frames written to the socket; the response payload stands for the
text the lossy UTF-8 decode would produce. -/
def rcon_command_fallback (reqId1 reqId2 : Int) (password command : List Nat)
    (chunks : List (List Nat)) : Except RconError (List Nat) × List (List Nat) :=
  let auth := make_packet reqId1 3 password
  match read_packet chunks with
  | (.frame rid _ _, rest) =>
    if rid = -1 then (.error .authFailed, [auth])
    else
      let execFrame := make_packet reqId2 2 command
      match read_packet rest with
      | (.frame _ _ resp, _) => (.ok resp, [auth, execFrame])
      | (.closed, _) => (.error .noResponse, [auth, execFrame])
      | (.exc, _) => (.error .raised, [auth, execFrame])
  | (.closed, _) => (.error .authFailed, [auth])
  | (.exc, _) => (.error .raised, [auth])

/-- State of `DaemonRconClient` (daemon_rcon.py:108-168). -/
structure DaemonRconClient where
  instance_id : String
  host : String
  port : Int
  password : String
  connected : Bool

namespace DaemonRconClient

/-- `DaemonRconClient.connect` (daemon_rcon.py:125-133): sets the internal
flag and returns `True`; the third component is the list of network
requests performed, which is empty -- the daemon manages connections. -/
def connect (c : DaemonRconClient) : DaemonRconClient × Bool × List String :=
  ({ c with connected := true }, true, [])

/-- `DaemonRconClient.disconnect` (daemon_rcon.py:134-137): clears the
internal flag only. -/
def disconnect (c : DaemonRconClient) : DaemonRconClient :=
  { c with connected := false }

/-- `DaemonRconClient.command` (daemon_rcon.py:138-156), parametrised by
the outcome of the delegated `daemon_rcon_command` HTTP call, whose
contract is a response string or a raised `ConnectionError`; the
`ConnectionError` is caught, logged to stderr and turned into `None`. -/
def command (c : DaemonRconClient) (bridge : Except String String) : Option String :=
  match bridge with
  | .ok resp => some resp
  | .error _ => none

end DaemonRconClient

/-- Python truthiness of a JSON value, deciding the
`if ping_result:` branch of `status` (lifecycle.py:1405). -/
def jsonTruthy : Json → Bool
  | .null => false
  | .bool b => b
  | .num n => decide (n ≠ 0)
  | .str s => !s.isEmpty
  | .arr xs => !xs.isEmpty
  | .obj fs => !fs.isEmpty

/-- Record built by the `ping_result` branch of `status`
(lifecycle.py:1411-1423); the fields keep the raw JSON values the Python
dict would hold. -/
structure StatusRecord where
  players_online : Json
  players_max : Json
  player_list : List Json
  version : Json
  protocol : Json
  motd : Json

/-- Field extraction performed by `status` (lifecycle.py:1406-1423) on a
parsed ping document: `.get` with defaults for `players`, `version` and
`description`, the dict form of `description` replaced by its `text`
field, and the `sample` name comprehension.  `none` models an exception
(a non-dict where `.get` is called, or a non-list `sample`), which the
outer handler of `status` turns into an error dict instead of a status
record.  `Option` sequencing is insensitive to the evaluation order of
the Python dict literal. -/
def status_extract (ping_result : Json) : Option StatusRecord := do
  let players ← pyGet ping_result "players" (.obj [])
  let version ← pyGet ping_result "version" (.obj [])
  let desc ← pyGet ping_result "description" (.str "")
  let motd ← match desc with
    | .obj fields => pyGet (.obj fields) "text" (.str "")
    | d => some d
  let online ← pyGet players "online" (.num 0)
  let pmax ← pyGet players "max" (.num 0)
  let sample ← pyGet players "sample" (.arr [])
  let entries ← match sample with
    | .arr xs => some xs
    | _ => none
  let names ← entries.mapM (fun p => pyGet p "name" (.str ""))
  let vname ← pyGet version "name" (.str "unknown")
  let vproto ← pyGet version "protocol" (.num (-1))
  some ⟨online, pmax, names, vname, vproto, motd⟩

/-- The `ping_result`-dependent part of `status` (lifecycle.py:1405-1423):
extraction runs only when the parsed document is truthy; a falsy or
absent document sends `status` to the pid-probing branch, which builds no
status record. -/
def status_record (ping_result : Json) : Option StatusRecord :=
  if jsonTruthy ping_result then status_extract ping_result else none

/-- A status document of the shape the Server List Ping protocol
specifies: `players` with `online`, `max` and a `sample` of named
entries, `version` with `name` and `protocol`, and a `description` of
either supported form. -/
def mkStatusDoc (o m : Int) (names : List String) (vn : String) (proto : Int)
    (desc : Json) : Json :=
  .obj [("players", .obj [("online", .num o), ("max", .num m),
          ("sample", .arr (names.map fun n => .obj [("name", .str n)]))]),
        ("version", .obj [("name", .str vn), ("protocol", .num proto)]),
        ("description", desc)]

/-! Bitwise helper lemmas. -/

lemma testBit_add_mul_two_pow (a b k i : Nat) (h : a < 2 ^ k) :
    (a + b * 2 ^ k).testBit i = (a.testBit i || (decide (k ≤ i) && b.testBit (i - k))) := by
  rcases Nat.lt_or_ge i k with hik | hik
  · have hdk : ¬ k ≤ i := by omega
    have hsplit : 2 ^ k = 2 ^ (k - i) * 2 ^ i := by
      rw [← pow_add]; congr 1; omega
    have hstep : (a + b * 2 ^ k) / 2 ^ i = a / 2 ^ i + b * 2 ^ (k - i) := by
      rw [hsplit, ← Nat.mul_assoc,
        Nat.add_mul_div_right _ _ (Nat.pos_pow_of_pos i (by norm_num))]
    obtain ⟨j, hj⟩ : ∃ j, k - i = j + 1 := ⟨k - i - 1, by omega⟩
    have heven : b * 2 ^ (k - i) = b * 2 ^ j * 2 := by
      rw [hj, pow_succ, mul_assoc]
    rw [Nat.testBit_to_div_mod, hstep, heven, Nat.add_mul_mod_self_right]
    simp [hdk, Nat.testBit_to_div_mod]
  · have ha : a.testBit i = false :=
      Nat.testBit_lt_two_pow (lt_of_lt_of_le h (Nat.pow_le_pow_right (by norm_num) hik))
    have hsplit : 2 ^ i = 2 ^ k * 2 ^ (i - k) := by
      rw [← pow_add]; congr 1; omega
    have hstep : (a + b * 2 ^ k) / 2 ^ k = b := by
      rw [Nat.add_mul_div_right _ _ (Nat.pos_pow_of_pos k (by norm_num)),
        Nat.div_eq_of_lt h, Nat.zero_add]
    rw [Nat.testBit_to_div_mod, hsplit, ← Nat.div_div_eq_div_mul, hstep, ha]
    simp [hik, Nat.testBit_to_div_mod]

lemma lor_shiftLeft_eq_add (a b k : Nat) (h : a < 2 ^ k) :
    a ||| b <<< k = a + b * 2 ^ k := by
  apply Nat.eq_of_testBit_eq
  intro i
  rw [Nat.testBit_or, Nat.testBit_shiftLeft, testBit_add_mul_two_pow a b k i h]

lemma and_127_eq_mod (x : Nat) : x &&& 127 = x % 128 := by
  have h := Nat.and_pow_two_sub_one_eq_mod x 7
  norm_num at h
  exact h

lemma and_128_eq_zero {x : Nat} (h : x < 128) : x &&& 128 = 0 := by
  have h7 : x.testBit 7 = false := Nat.testBit_lt_two_pow (by norm_num; omega)
  have h2 := Nat.and_two_pow x 7
  rw [h7] at h2
  simpa using h2

lemma and_128_of_ge {x : Nat} (h1 : 128 ≤ x) (h2 : x < 256) : x &&& 128 = 128 := by
  have h7 : x.testBit 7 = true := by
    rw [Nat.testBit_to_div_mod]
    norm_num
    omega
  have hx := Nat.and_two_pow x 7
  rw [h7] at hx
  simpa using hx

lemma and_bit31_eq_zero {n : Nat} (h : n < 2 ^ 31) : n &&& 1 <<< 31 = 0 := by
  have hs : (1 <<< 31 : Nat) = 2 ^ 31 := by rw [Nat.shiftLeft_eq]; ring
  have h31 : n.testBit 31 = false := Nat.testBit_lt_two_pow h
  have h2 := Nat.and_two_pow n 31
  rw [h31] at h2
  rw [hs]
  simpa using h2

lemma and_bit31_of_ge {n : Nat} (h1 : 2 ^ 31 ≤ n) (h2 : n < 2 ^ 32) :
    n &&& 1 <<< 31 = 2 ^ 31 := by
  have hs : (1 <<< 31 : Nat) = 2 ^ 31 := by rw [Nat.shiftLeft_eq]; ring
  have h31 : n.testBit 31 = true := by
    rw [Nat.testBit_to_div_mod]
    norm_num at h1 h2 ⊢
    omega
  have hx := Nat.and_two_pow n 31
  rw [h31] at hx
  rw [hs]
  simpa using hx

/-! Varint round-trip at the unsigned level. -/

lemma readVarint_encode_aux : ∀ fuel v res shift, v < fuel → res < 2 ^ shift →
    MinecraftPing.readVarintAux (MinecraftPing.encodeVarintAux fuel v) res shift =
      some (res + v * 2 ^ shift, (MinecraftPing.encodeVarintAux fuel v).length) := by
  intro fuel
  induction fuel with
  | zero => intro v res shift hv; omega
  | succ fuel ih =>
    intro v res shift hv hres
    by_cases h0 : v >>> 7 = 0
    · have hv128 : v < 128 := by
        rw [Nat.shiftRight_eq_div_pow] at h0
        norm_num at h0
        omega
      have henc : MinecraftPing.encodeVarintAux (fuel + 1) v = [v &&& 127] := by
        simp [MinecraftPing.encodeVarintAux, h0]
      have hb : v &&& 127 = v := by rw [and_127_eq_mod]; omega
      rw [henc]
      simp only [MinecraftPing.readVarintAux, hb, and_128_eq_zero hv128]
      rw [lor_shiftLeft_eq_add res v shift hres]
      simp
    · have hv128 : 128 ≤ v := by
        rw [Nat.shiftRight_eq_div_pow] at h0
        norm_num at h0
        omega
      have hb127 : (v &&& 127) < 2 ^ 7 := by rw [and_127_eq_mod]; omega
      have hor : (v &&& 127) ||| 128 = v % 128 + 128 := by
        have h2 := lor_shiftLeft_eq_add (v &&& 127) 1 7 hb127
        norm_num [Nat.shiftLeft_eq] at h2
        rw [h2, and_127_eq_mod]
      have henc : MinecraftPing.encodeVarintAux (fuel + 1) v =
          (v % 128 + 128) :: MinecraftPing.encodeVarintAux fuel (v >>> 7) := by
        simp [MinecraftPing.encodeVarintAux, h0, hor]
      rw [henc]
      have hb2a : (v % 128 + 128) &&& 127 = v % 128 := by
        rw [and_127_eq_mod]; omega
      have hb2b : (v % 128 + 128) &&& 128 = 128 := and_128_of_ge (by omega) (by omega)
      simp only [MinecraftPing.readVarintAux, hb2a, hb2b]
      rw [lor_shiftLeft_eq_add res (v % 128) shift hres]
      have hres2lt : res + (v % 128) * 2 ^ shift < 2 ^ (shift + 7) := by
        have hp : 2 ^ (shift + 7) = 128 * 2 ^ shift := by rw [pow_add]; ring
        have h1 : (v % 128) * 2 ^ shift ≤ 127 * 2 ^ shift :=
          Nat.mul_le_mul_right _ (by omega)
        omega
      have hvfuel : v >>> 7 < fuel := by
        rw [Nat.shiftRight_eq_div_pow]
        norm_num
        omega
      rw [ih (v >>> 7) _ (shift + 7) hvfuel hres2lt]
      have harith : res + (v % 128) * 2 ^ shift + (v >>> 7) * 2 ^ (shift + 7) =
          res + v * 2 ^ shift := by
        rw [Nat.shiftRight_eq_div_pow]
        have hp : 2 ^ (shift + 7) = 2 ^ shift * 128 := by rw [pow_add]; ring
        rw [hp]
        have hsplit : v % 128 + 128 * (v / 128) = v := Nat.mod_add_div v 128
        calc res + (v % 128) * 2 ^ shift + v / 2 ^ 7 * (2 ^ shift * 128)
            = res + (v % 128 + 128 * (v / 128)) * 2 ^ shift := by norm_num; ring
          _ = res + v * 2 ^ shift := by rw [hsplit]
      simp [harith]

/-- C1: decoding the bytes produced by `_encode_varint` with
`_read_varint` yields the original 32-bit signed value, the decode
offset advanced past exactly the encoded bytes. -/
theorem varint_roundtrip (v : Int) (h1 : -2 ^ 31 ≤ v) (h2 : v < 2 ^ 31) :
    MinecraftPing.read_varint (MinecraftPing.encode_varint v) 0 =
      some (v, (MinecraftPing.encode_varint v).length) := by
  unfold MinecraftPing.encode_varint MinecraftPing.read_varint
  have hw0 : (0 : Int) ≤ if v < 0 then v + 2 ^ 32 else v := by
    split <;> omega
  have hwlt : (if v < 0 then v + 2 ^ 32 else v) < 2 ^ 32 := by
    split <;> omega
  set w : Int := if v < 0 then v + 2 ^ 32 else v with hw
  have hn : w.toNat < 2 ^ 32 := by omega
  rw [List.drop_zero,
    readVarint_encode_aux (w.toNat + 1) w.toNat 0 0 (by omega) (by norm_num)]
  simp only [pow_zero, Nat.mul_one, Nat.zero_add]
  by_cases hneg : v < 0
  · have hwv : w = v + 2 ^ 32 := by rw [hw, if_pos hneg]
    have hge : 2 ^ 31 ≤ w.toNat := by omega
    rw [if_neg (by rw [and_bit31_of_ge hge hn]; norm_num)]
    congr 2
    omega
  · have hwv : w = v := by rw [hw, if_neg hneg]
    have hlt : w.toNat < 2 ^ 31 := by omega
    rw [if_pos (and_bit31_eq_zero hlt)]
    congr 2
    omega

/-- C1 witness: round trip at the boundary value `-2147483648`. -/
theorem varint_roundtrip_witness :
    MinecraftPing.read_varint (MinecraftPing.encode_varint (-2147483648)) 0 =
      some (-2147483648, (MinecraftPing.encode_varint (-2147483648)).length) :=
  varint_roundtrip (-2147483648) (by norm_num) (by norm_num)

/-- C2 amended: `_encode_varint(-1)` produces exactly 5 bytes, each equal
to `0xFF` except the last, which equals `0x0F` (the minimal unsigned
varint encoding of `0xFFFFFFFF`). -/
theorem encode_varint_neg_one :
    MinecraftPing.encode_varint (-1) = [0xFF, 0xFF, 0xFF, 0xFF, 0x0F] := by
  decide

/-- C2 counterexample: the last byte of `_encode_varint(-1)` is `0x0F`,
not `0x07` as claimed. -/
theorem encode_varint_neg_one_not_07 :
    MinecraftPing.encode_varint (-1) ≠ [0xFF, 0xFF, 0xFF, 0xFF, 0x07] ∧
    (MinecraftPing.encode_varint (-1)).getLast? = some 0x0F := by
  exact ⟨by decide, by decide⟩

/-! Termination behaviour of `_read_varint`. -/

lemma readVarintAux_none_iff : ∀ (data : List Nat) (res shift : Nat),
    MinecraftPing.readVarintAux data res shift = none ↔ ∀ b ∈ data, b &&& 0x80 ≠ 0 := by
  intro data
  induction data with
  | nil => intro res shift; simp [MinecraftPing.readVarintAux]
  | cons b rest ih =>
    intro res shift
    simp only [MinecraftPing.readVarintAux, List.mem_cons]
    by_cases hb : b &&& 128 = 0
    · rw [if_pos hb]
      constructor
      · intro h; exact absurd h (by simp)
      · intro h; exact absurd hb (h b (Or.inl rfl))
    · rw [if_neg hb]
      cases hrec : MinecraftPing.readVarintAux rest (res ||| (b &&& 127) <<< shift)
          (shift + 7) with
      | none =>
        have ihx := ih (res ||| (b &&& 127) <<< shift) (shift + 7)
        rw [hrec] at ihx
        constructor
        · intro _ b2 hb2
          rcases hb2 with h1 | h2
          · rw [h1]; exact hb
          · exact (ihx.mp rfl) b2 h2
        · intro _; rfl
      | some p =>
        obtain ⟨r, used⟩ := p
        have ihx := ih (res ||| (b &&& 127) <<< shift) (shift + 7)
        rw [hrec] at ihx
        constructor
        · intro h; exact absurd h (by simp)
        · intro hall
          have hnone : (some (r, used) : Option (Nat × Nat)) = none :=
            ihx.mpr fun b2 hb2 => hall b2 (Or.inr hb2)
          exact absurd hnone (by simp)

/-- C3 amended: `_read_varint` imposes no 5-byte limit.  It raises
`ValueError` exactly when every byte from the offset to the end of the
data carries the continuation bit; in particular a sequence whose first
five bytes all have the continuation bit set is still decoded, not
rejected, as soon as a later byte terminates it. -/
theorem read_varint_none_iff_unterminated (data : List Nat) :
    MinecraftPing.read_varint data 0 = none ↔ ∀ b ∈ data, b &&& 0x80 ≠ 0 := by
  unfold MinecraftPing.read_varint
  rw [List.drop_zero]
  cases hrec : MinecraftPing.readVarintAux data 0 0 with
  | none =>
    simp only [hrec]
    exact iff_of_true (by trivial) ((readVarintAux_none_iff data 0 0).mp hrec)
  | some p =>
    obtain ⟨r, used⟩ := p
    simp only [hrec]
    apply iff_of_false (by simp)
    intro hall
    have hnone : (some (r, used) : Option (Nat × Nat)) = none := by
      rw [← hrec]
      exact (readVarintAux_none_iff data 0 0).mpr hall
    exact absurd hnone (by simp)

/-- C3 counterexample: a six-byte sequence whose first five bytes all
carry the continuation bit is decoded to a value (`2^35`, offset 6)
instead of being rejected. -/
theorem read_varint_no_five_byte_cap :
    (([128, 128, 128, 128, 128, 1] : List Nat).take 5).all (fun b => b &&& 0x80 != 0) = true ∧
    MinecraftPing.read_varint [128, 128, 128, 128, 128, 1] 0 = some (34359738368, 6) := by
  exact ⟨by decide, by decide⟩

/-! Little-endian 32-bit helpers. -/

lemma le32_length (v : Int) : (le32 v).length = 4 := rfl

lemma natOfLE_le32 (v : Int) (h0 : 0 ≤ v) (h1 : v < 2 ^ 32) :
    natOfLE (le32 v) = v.toNat := by
  unfold le32 natOfLE
  have hm : v % 2 ^ 32 = v := Int.emod_eq_of_lt h0 h1
  rw [hm]
  simp only [List.foldr]
  norm_num
  omega

/-- C4: every console frame built by `_make_packet` is the 4-byte
little-endian size `4 + 4 + len(payload) + 2`, then the request id, the
packet type, the payload and two null bytes; the size field decodes to
exactly that count, and the authenticate frame for password `"secret"`
(bytes 115,101,99,114,101,116) with request id 7 is the concrete
20-byte sequence. -/
theorem make_packet_layout (reqId pktType : Int) (payload : List Nat) :
    make_packet reqId pktType payload =
      le32 ((4 + 4 + payload.length + 2 : Nat) : Int) ++ le32 reqId ++ le32 pktType ++
        payload ++ [0, 0] ∧
    (payload.length + 10 < 2 ^ 31 →
      natOfLE ((make_packet reqId pktType payload).take 4) = 4 + 4 + payload.length + 2) ∧
    make_packet 7 3 [115, 101, 99, 114, 101, 116] =
      [16, 0, 0, 0, 7, 0, 0, 0, 3, 0, 0, 0, 115, 101, 99, 114, 101, 116, 0, 0] := by
  refine ⟨?_, ?_, by decide⟩
  · simp only [make_packet, List.length_append, le32_length, List.length_cons,
      List.length_nil, List.append_assoc]
    norm_num
    congr 1
    ring
  · intro hlen
    have htake : (make_packet reqId pktType payload).take 4 =
        le32 ((le32 reqId ++ le32 pktType ++ payload ++ [0, 0]).length : Int) := by
      unfold make_packet
      rw [show (4 : Nat) = (le32 ((le32 reqId ++ le32 pktType ++ payload ++ [0, 0]).length
        : Int)).length from rfl]
      exact List.take_left _ _
    rw [htake]
    have hlen2 : (le32 reqId ++ le32 pktType ++ payload ++ [0, 0]).length =
        4 + 4 + payload.length + 2 := by
      simp [le32_length]
      omega
    rw [hlen2, natOfLE_le32 _ (by omega) (by norm_num; omega)]
    omega

/-- C4 witness: the size-field conjunct at the empty payload. -/
theorem make_packet_layout_witness :
    natOfLE ((make_packet 7 3 ([] : List Nat)).take 4) = 4 + 4 + ([] : List Nat).length + 2 :=
  (make_packet_layout 7 3 []).2.1 (by norm_num)

/-- C7: evaluating the ping read loop at the failing trace: a socket error
(or timeout) raised during `recv` makes `ping` return `None` with the
socket left unclosed, while the peer-close path does close it before
returning. -/
theorem ping_close_missing_on_error :
    (MinecraftPing.pingLoop (fun _ => none) [MinecraftPing.PingEvent.sockErr] []).closed
        = false ∧
    (MinecraftPing.pingLoop (fun _ => none) [MinecraftPing.PingEvent.chunk []] []).closed
        = true :=
  ⟨rfl, rfl⟩

/-- C10: `DaemonRconClient.connect` performs no network request and
returns `True` unconditionally, `disconnect` only clears the flag, and
`command` maps a `ConnectionError` from the daemon bridge to `None`
instead of propagating it, and a response string to that string. -/
theorem daemon_rcon_client_spec (c : DaemonRconClient) :
    DaemonRconClient.connect c = ({ c with connected := true }, true, ([] : List String)) ∧
    DaemonRconClient.disconnect c = { c with connected := false } ∧
    (∀ e : String, DaemonRconClient.command c (.error e) = none) ∧
    (∀ r : String, DaemonRconClient.command c (.ok r) = some r) :=
  ⟨rfl, rfl, fun _ => rfl, fun _ => rfl⟩

/-! Correctness of the accumulate-exactly-n read loop. -/

lemma recvLoop_ok : ∀ (fuel : Nat) (chunks : List (List Nat)) (acc : List Nat) (n : Nat),
    (∀ c ∈ chunks, c ≠ []) → n - acc.length < fuel →
    n ≤ acc.length + chunks.flatten.length →
    ∃ rest, recvLoop fuel n chunks acc =
        (.ok (acc ++ chunks.flatten.take (n - acc.length)), rest) ∧
      rest.flatten = chunks.flatten.drop (n - acc.length) ∧
      ∀ c ∈ rest, c ≠ [] := by
  intro fuel
  induction fuel with
  | zero => intro chunks acc n hne hfuel hlen; omega
  | succ fuel ih =>
    intro chunks acc n hne hfuel hlen
    by_cases hexit : n ≤ acc.length
    · refine ⟨chunks, ?_, ?_, hne⟩
      · simp [recvLoop, hexit, Nat.sub_eq_zero_of_le hexit]
      · simp [Nat.sub_eq_zero_of_le hexit]
    · match chunks with
      | [] => simp at hlen; omega
      | c :: rest0 =>
        have hc : c ≠ [] := hne c (List.mem_cons_self c rest0)
        have hcpos : 0 < c.length := List.length_pos.mpr hc
        have hflat : (c :: rest0).flatten = c ++ rest0.flatten := List.flatten_cons
        by_cases hk : n - acc.length < c.length
        · have hstep : recvLoop (fuel + 1) n (c :: rest0) acc =
              recvLoop fuel n (c.drop (n - acc.length) :: rest0)
                (acc ++ c.take (n - acc.length)) := by
            simp [recvLoop, hexit, hc, hk]
          have hacc2 : (acc ++ c.take (n - acc.length)).length = n := by
            simp only [List.length_append, List.length_take]
            omega
          have hne2 : ∀ c2 ∈ c.drop (n - acc.length) :: rest0, c2 ≠ [] := by
            intro c2 hc2
            rcases List.mem_cons.mp hc2 with h1 | h2
            · rw [h1]
              intro hnil
              rw [List.drop_eq_nil_iff] at hnil
              omega
            · exact hne c2 (List.mem_cons_of_mem _ h2)
          obtain ⟨rest, heq, hrest, hrne⟩ := ih (c.drop (n - acc.length) :: rest0)
            (acc ++ c.take (n - acc.length)) n hne2 (by rw [hacc2]; omega)
            (by rw [hacc2]; omega)
          rw [hacc2] at heq hrest
          have hsub0 : n - acc.length - c.length = 0 := by omega
          refine ⟨rest, ?_, ?_, hrne⟩
          · rw [hstep, heq, hflat, List.take_append_eq_append_take, hsub0]
            simp [List.append_assoc]
          · rw [hrest, hflat]
            simp only [Nat.sub_self, List.drop_zero, List.flatten_cons]
            rw [List.drop_append_eq_append_drop, hsub0, List.drop_zero]
        · have hck : c.length ≤ n - acc.length := by omega
          have hstep : recvLoop (fuel + 1) n (c :: rest0) acc =
              recvLoop fuel n rest0 (acc ++ c) := by
            simp [recvLoop, hexit, hc, hk, List.take_of_length_le hck]
          have hlenac : (acc ++ c).length = acc.length + c.length := by
            simp
          have hlen2 : n ≤ (acc ++ c).length + rest0.flatten.length := by
            rw [hflat] at hlen
            simp only [List.length_append] at hlen
            omega
          obtain ⟨rest, heq, hrest, hrne⟩ := ih rest0 (acc ++ c) n
            (fun c2 hc2 => hne c2 (List.mem_cons_of_mem _ hc2))
            (by rw [hlenac]; omega) hlen2
          have hsub : n - (acc ++ c).length = n - acc.length - c.length := by
            rw [hlenac]; omega
          refine ⟨rest, ?_, ?_, hrne⟩
          · rw [hstep, heq, hflat, hsub,
              List.take_append_eq_append_take, List.take_of_length_le hck,
              List.append_assoc]
          · rw [hrest, hflat, hsub, List.drop_append_eq_append_drop,
              List.drop_eq_nil_iff.mpr hck, List.nil_append]

lemma recvLoop_eof : ∀ (pre : List (List Nat)) (fuel : Nat) (rest : List (List Nat))
    (acc : List Nat) (n : Nat),
    (∀ c ∈ pre, c ≠ []) → acc.length + pre.flatten.length < n →
    pre.flatten.length < fuel →
    recvLoop fuel n (pre ++ [] :: rest) acc = (.eof, [] :: rest) := by
  intro pre
  induction pre with
  | nil =>
    intro fuel rest acc n _ hlen hfuel
    simp only [List.flatten_nil, List.length_nil, Nat.add_zero] at hlen hfuel
    cases fuel with
    | zero => omega
    | succ fuel =>
      have hexit : ¬ n ≤ acc.length := by omega
      simp [recvLoop, hexit]
  | cons c pre2 ih =>
    intro fuel rest acc n hne hlen hfuel
    have hc : c ≠ [] := hne c (List.mem_cons_self c pre2)
    have hcpos : 0 < c.length := List.length_pos.mpr hc
    simp only [List.flatten_cons, List.length_append] at hlen hfuel
    cases fuel with
    | zero => omega
    | succ fuel =>
      have hexit : ¬ n ≤ acc.length := by omega
      have hck : ¬ (n - acc.length < c.length) := by omega
      have hstep : recvLoop (fuel + 1) n ((c :: pre2) ++ [] :: rest) acc =
          recvLoop fuel n (pre2 ++ [] :: rest) (acc ++ c) := by
        simp [recvLoop, hexit, hc, hck,
          List.take_of_length_le (show c.length ≤ n - acc.length by omega)]
      rw [hstep]
      exact ih fuel rest (acc ++ c) n
        (fun c2 hc2 => hne c2 (List.mem_cons_of_mem _ hc2))
        (by simp only [List.length_append]; omega) (by omega)

/-- C6: the read-exact loop of `_read_packet` accumulates partial chunks
until exactly the requested count is collected and returns them as one
buffer (never a short buffer); a zero-length read before completion
yields the end-of-stream result instead; and the spec's concrete
scenario -- chunks of 2, 1 and 3 bytes for a 6-byte request -- returns
all 6 bytes as a single buffer. -/
theorem read_exact_spec :
    (∀ (n : Nat) (chunks : List (List Nat)), (∀ c ∈ chunks, c ≠ []) →
      n ≤ chunks.flatten.length →
      (recvExact n chunks).1 = .ok (chunks.flatten.take n) ∧
        (chunks.flatten.take n).length = n) ∧
    (∀ (n : Nat) (pre rest : List (List Nat)), (∀ c ∈ pre, c ≠ []) →
      pre.flatten.length < n →
      recvExact n (pre ++ [] :: rest) = (.eof, [] :: rest)) ∧
    recvExact 6 [[1, 2], [3], [4, 5, 6]] = (.ok [1, 2, 3, 4, 5, 6], []) := by
  refine ⟨?_, ?_, by decide⟩
  · intro n chunks hne hlen
    obtain ⟨rest, heq, _, _⟩ := recvLoop_ok (n + 1) chunks [] n hne (by simp)
      (by simp only [List.length_nil, Nat.zero_add]; exact hlen)
    constructor
    · rw [recvExact, heq]
      simp
    · rw [List.length_take]
      omega
  · intro n pre rest hne hlen
    exact recvLoop_eof pre (n + 1) rest [] n hne
      (by simp only [List.length_nil, Nat.zero_add]; exact hlen) (by omega)

/-- C6 witness: the general clauses applied at concrete inputs. -/
theorem read_exact_spec_witness :
    ((recvExact 3 [[9], [8, 7]]).1 = .ok (([[9], [8, 7]] : List (List Nat)).flatten.take 3) ∧
      (([[9], [8, 7]] : List (List Nat)).flatten.take 3).length = 3) ∧
    recvExact 4 ([[1], [2]] ++ [] :: [[5]]) = (.eof, [] :: [[5]]) :=
  ⟨read_exact_spec.1 3 [[9], [8, 7]] (by decide) (by decide),
   read_exact_spec.2.1 4 [[1], [2]] [[5]] (by decide) (by decide)⟩

/-! Signed 32-bit round trip and frame parsing. -/

lemma natOfLE_le32_mod (v : Int) : natOfLE (le32 v) = (v % 2 ^ 32).toNat := by
  unfold le32 natOfLE
  have h1 : (0 : Int) ≤ v % 2 ^ 32 := Int.emod_nonneg v (by norm_num)
  have h2 : v % 2 ^ 32 < 2 ^ 32 := Int.emod_lt_of_pos v (by norm_num)
  simp only [List.foldr]
  norm_num
  omega

lemma int32ofLE_le32 (v : Int) (h0 : -2 ^ 31 ≤ v) (h1 : v < 2 ^ 31) :
    int32ofLE (le32 v) = v := by
  unfold int32ofLE
  rw [natOfLE_le32_mod]
  by_cases hv : 0 ≤ v
  · have hm : v % 2 ^ 32 = v := Int.emod_eq_of_lt hv (by omega)
    rw [hm, if_pos (by omega)]
    omega
  · have hm : v % 2 ^ 32 = v + 2 ^ 32 := by omega
    rw [hm, if_neg (by omega)]
    omega

lemma flatten_nil_eq_nil {rest : List (List Nat)} (h : rest.flatten = [])
    (hne : ∀ c ∈ rest, c ≠ []) : rest = [] := by
  cases rest with
  | nil => rfl
  | cons c rs =>
    rw [List.flatten_cons] at h
    have hcnil : c = [] := by
      cases c with
      | nil => rfl
      | cons a as => simp at h
    exact absurd hcnil (hne c (List.mem_cons_self c rs))

lemma read_packet_make_packet (rid pt : Int) (payload : List Nat)
    (hrid0 : -2 ^ 31 ≤ rid) (hrid1 : rid < 2 ^ 31)
    (hpt0 : -2 ^ 31 ≤ pt) (hpt1 : pt < 2 ^ 31)
    (hlen : payload.length + 10 < 2 ^ 31) :
    read_packet [make_packet rid pt payload] = (.frame rid pt payload, []) := by
  have hbody : make_packet rid pt payload =
      le32 (((le32 rid ++ le32 pt ++ payload ++ [0, 0]).length : Nat) : Int) ++
        (le32 rid ++ le32 pt ++ payload ++ [0, 0]) := rfl
  set body := le32 rid ++ le32 pt ++ payload ++ [0, 0] with hbodydef
  set w := make_packet rid pt payload with hwdef
  have hbodylen : body.length = 10 + payload.length := by
    rw [hbodydef]
    simp [le32_length]
    omega
  have hwlen : w.length = 4 + body.length := by
    rw [hbody]
    simp [le32_length]
  have hwne : ∀ c ∈ [w], c ≠ [] := by
    intro c hc
    rw [List.mem_singleton] at hc
    rw [hc]
    intro hnil
    have := congrArg List.length hnil
    rw [hwlen] at this
    simp at this
  obtain ⟨rest1, e1, hf1, hne1⟩ := recvLoop_ok 5 [w] [] 4 hwne (by norm_num)
    (by simp [hwlen])
  have e1x : recvExact 4 [w] = (.ok (w.take 4), rest1) := by
    rw [recvExact]
    rw [show (4 + 1 : Nat) = 5 from rfl, e1]
    simp
  have hf1x : rest1.flatten = w.drop 4 := by
    rw [hf1]
    simp
  have t4 : w.take 4 = le32 ((body.length : Nat) : Int) := by
    rw [hbody]
    exact List.take_left' (le32_length _)
  have d4 : w.drop 4 = body := by
    rw [hbody]
    exact List.drop_left' (le32_length _)
  have i32 : int32ofLE (le32 ((body.length : Nat) : Int)) = ((body.length : Nat) : Int) :=
    int32ofLE_le32 _ (by omega) (by push_cast; omega)
  obtain ⟨rest2, e2, hf2, hne2⟩ := recvLoop_ok (body.length + 1) rest1 [] body.length hne1
    (by simp) (by rw [hf1x, d4]; simp)
  have e2x : recvExact body.length rest1 = (.ok body, rest2) := by
    rw [recvExact, e2]
    simp only [List.length_nil, Nat.sub_zero, List.nil_append]
    rw [hf1x, d4, List.take_length]
  have hrest2 : rest2 = [] := by
    apply flatten_nil_eq_nil _ hne2
    rw [hf2, hf1x, d4]
    simp
  have hassoc1 : body = le32 rid ++ (le32 pt ++ (payload ++ [0, 0])) := by
    rw [hbodydef]
    simp [List.append_assoc]
  have hassoc2 : body = (le32 rid ++ le32 pt) ++ (payload ++ [0, 0]) := by
    rw [hbodydef]
    simp [List.append_assoc]
  have bt4 : body.take 4 = le32 rid := by
    rw [hassoc1]
    exact List.take_left' (le32_length _)
  have bd4 : body.drop 4 = le32 pt ++ (payload ++ [0, 0]) := by
    rw [hassoc1]
    exact List.drop_left' (le32_length _)
  have bd4t4 : (body.drop 4).take 4 = le32 pt := by
    rw [bd4]
    exact List.take_left' (le32_length _)
  have bd8 : body.drop 8 = payload ++ [0, 0] := by
    rw [hassoc2]
    exact List.drop_left' (by simp [le32_length])
  have irid : int32ofLE (le32 rid) = rid := int32ofLE_le32 rid hrid0 hrid1
  have ipt : int32ofLE (le32 pt) = pt := int32ofLE_le32 pt hpt0 hpt1
  unfold read_packet
  rw [e1x]
  simp only [t4, i32, Int.toNat_natCast, e2x]
  rw [if_pos (by omega)]
  by_cases hp : 10 < body.length
  · rw [if_pos hp]
    have hsub : body.length - 10 = payload.length := by omega
    rw [bt4, bd4t4, bd8, irid, ipt, hsub, List.take_left, hrest2]
  · rw [if_neg hp]
    have hpay : payload = [] := by
      rw [← List.length_eq_zero]
      omega
    rw [bt4, bd4t4, irid, ipt, hrest2, hpay]

/-- C5: when the authentication response frame carries `request_id = -1`,
whatever its packet type and payload and whatever request ids the client
chose, the fallback path of `rcon_command` raises the authentication
`ConnectionError` and the only frame ever written to the socket is the
authenticate frame -- no execute-command frame is sent. -/
theorem rcon_auth_failure (pktType : Int) (payload : List Nat) (reqId1 reqId2 : Int)
    (password command : List Nat)
    (hpt0 : -2 ^ 31 ≤ pktType) (hpt1 : pktType < 2 ^ 31)
    (hlen : payload.length + 10 < 2 ^ 31) :
    rcon_command_fallback reqId1 reqId2 password command [make_packet (-1) pktType payload] =
      (.error .authFailed, [make_packet reqId1 3 password]) := by
  unfold rcon_command_fallback
  rw [read_packet_make_packet (-1) pktType payload (by norm_num) (by norm_num) hpt0 hpt1 hlen]
  simp

/-- C5 witness: a concrete rejected authentication exchange. -/
theorem rcon_auth_failure_witness :
    rcon_command_fallback 7 9 [1, 2] [3] [make_packet (-1) 0 [65]] =
      (.error .authFailed, [make_packet 7 3 [1, 2]]) :=
  rcon_auth_failure 0 [65] 7 9 [1, 2] [3] (by norm_num) (by norm_num) (by norm_num)

/-- C8: every failure case of the ping exchange yields `None` rather than
an exception: a packet length that overdeclares the buffered bytes makes
the parse incomplete, a varint that the data cannot terminate, a packet
id other than 0, and JSON the decoder rejects all make `_parse_response`
return `None`; on a parse returning `None` the read loop keeps
accumulating; and a raised socket error or an elapsed timeout makes
`ping` return `None` to its caller. -/
theorem ping_no_raise :
    (∀ (loads : List Nat → Option Json) (data : List Nat) (pktLen : Int) (offset1 : Nat),
      MinecraftPing.read_varint data 0 = some (pktLen, offset1) →
      (data.length : Int) < (offset1 : Int) + pktLen →
      MinecraftPing.parse_response loads data = none) ∧
    (∀ (loads : List Nat → Option Json) (data : List Nat),
      MinecraftPing.read_varint data 0 = none →
      MinecraftPing.parse_response loads data = none) ∧
    (∀ (loads : List Nat → Option Json) (data : List Nat) (pktLen pktId : Int)
        (offset1 offset2 : Nat),
      MinecraftPing.read_varint data 0 = some (pktLen, offset1) →
      ¬ ((data.length : Int) < (offset1 : Int) + pktLen) →
      MinecraftPing.read_varint data offset1 = some (pktId, offset2) →
      pktId ≠ 0 →
      MinecraftPing.parse_response loads data = none) ∧
    (∀ data : List Nat, MinecraftPing.parse_response (fun _ => none) data = none) ∧
    (∀ (loads : List Nat → Option Json) (rest : List MinecraftPing.PingEvent)
        (c data : List Nat),
      MinecraftPing.parse_response loads (data ++ c) = none → c ≠ [] →
      MinecraftPing.pingLoop loads (.chunk c :: rest) data =
        MinecraftPing.pingLoop loads rest (data ++ c)) ∧
    (∀ (loads : List Nat → Option Json) (rest : List MinecraftPing.PingEvent)
        (data : List Nat),
      MinecraftPing.pingLoop loads (.sockErr :: rest) data = ⟨none, false⟩) ∧
    (∀ (loads : List Nat → Option Json) (data : List Nat),
      MinecraftPing.pingLoop loads [] data = ⟨none, false⟩) := by
  refine ⟨?_, ?_, ?_, ?_, ?_, fun _ _ _ => rfl, fun _ _ => rfl⟩
  · intro loads data pktLen offset1 h1 h2
    simp only [MinecraftPing.parse_response, h1]
    rw [if_pos h2]
  · intro loads data h
    simp only [MinecraftPing.parse_response, h]
  · intro loads data pktLen pktId offset1 offset2 h1 h2 h3 h4
    simp only [MinecraftPing.parse_response, h1, h3]
    rw [if_neg h2, if_pos h4]
  · intro data
    unfold MinecraftPing.parse_response
    cases MinecraftPing.read_varint data 0 with
    | none => rfl
    | some p =>
      obtain ⟨pktLen, offset1⟩ := p
      dsimp only
      by_cases h : (data.length : Int) < (offset1 : Int) + pktLen
      · rw [if_pos h]
      · rw [if_neg h]
        cases MinecraftPing.read_varint data offset1 with
        | none => rfl
        | some q =>
          obtain ⟨pktId, offset2⟩ := q
          dsimp only
          by_cases h2 : pktId ≠ 0
          · rw [if_pos h2]
          · rw [if_neg h2]
            cases MinecraftPing.read_varint data offset2 with
            | none => rfl
            | some r =>
              obtain ⟨jsonLen, offset3⟩ := r
              rfl
  · intro loads rest c data hparse hc
    cases c with
    | nil => exact absurd rfl hc
    | cons a as =>
      simp only [MinecraftPing.pingLoop]
      rw [hparse]

/-- C8 witness: the guarded clauses at concrete inputs -- an
overdeclared packet length, an unterminated varint, a wrong packet id,
and a loop step on an unparseable buffer. -/
theorem ping_no_raise_witness :
    MinecraftPing.parse_response (fun _ => some Json.null) [5] = none ∧
    MinecraftPing.parse_response (fun _ => some Json.null) [128] = none ∧
    MinecraftPing.parse_response (fun _ => some Json.null) [2, 1, 65] = none ∧
    MinecraftPing.pingLoop (fun _ => none) [.chunk [128]] [] =
      MinecraftPing.pingLoop (fun _ => none) [] ([] ++ [128]) :=
  ⟨ping_no_raise.1 _ [5] 5 1 (by decide) (by decide),
   ping_no_raise.2.1 _ [128] (by decide),
   ping_no_raise.2.2.1 _ [2, 1, 65] 2 1 1 2 (by decide) (by decide) (by decide) (by decide),
   ping_no_raise.2.2.2.2.1 _ [] [128] [] (by rfl) (by decide)⟩

/-! Status-document extraction. -/

lemma mapM_pyGet_names (names : List String) :
    (names.map fun n => Json.obj [("name", Json.str n)]).mapM
      (fun p => pyGet p "name" (Json.str "")) = some (names.map Json.str) := by
  induction names with
  | nil => rfl
  | cons n rest ih =>
    simp only [List.map_cons, List.mapM_cons, ih]
    rfl

/-- C9: on a well-formed status document, `status` extracts
`players.online`, `players.max`, the `name` of each `players.sample`
entry, `version.name` and `version.protocol` into its record, and
handles both forms of `description` -- a bare string becomes the motd
directly, and an object contributes its `text` field; the spec's
concrete document yields players 3 of 20, sample `Steve`, version
`1.21` protocol 767 and motd `A Server`. -/
theorem status_extract_fields (o m : Int) (names : List String) (vn : String) (proto : Int) :
    (∀ s : String,
      status_record (mkStatusDoc o m names vn proto (.str s)) =
        some ⟨.num o, .num m, names.map Json.str, .str vn, .num proto, .str s⟩) ∧
    (∀ s : String,
      status_record (mkStatusDoc o m names vn proto (.obj [("text", .str s)])) =
        some ⟨.num o, .num m, names.map Json.str, .str vn, .num proto, .str s⟩) ∧
    status_record (mkStatusDoc 3 20 ["Steve"] "1.21" 767 (.str "A Server")) =
      some ⟨.num 3, .num 20, [.str "Steve"], .str "1.21", .num 767, .str "A Server"⟩ := by
  refine ⟨?_, ?_, by rfl⟩
  · intro s
    rw [show status_record (mkStatusDoc o m names vn proto (.str s)) =
      ((names.map fun n => Json.obj [("name", Json.str n)]).mapM
          (fun p => pyGet p "name" (Json.str ""))).bind
        (fun ns => some ⟨.num o, .num m, ns, .str vn, .num proto, .str s⟩) from rfl]
    rw [mapM_pyGet_names]
    rfl
  · intro s
    rw [show status_record (mkStatusDoc o m names vn proto (.obj [("text", .str s)])) =
      ((names.map fun n => Json.obj [("name", Json.str n)]).mapM
          (fun p => pyGet p "name" (Json.str ""))).bind
        (fun ns => some ⟨.num o, .num m, ns, .str vn, .num proto, .str s⟩) from rfl]
    rw [mapM_pyGet_names]
    rfl
